import Mathlib

/-!
Verification of the Combined Savings Algorithm (Clarke-Wright savings
heuristic) for a small capacitated vehicle-routing problem.

This is a shallow embedding of `main.py` together with
`utils/distance_utils.py`, `utils/vehicle_utils.py` and
`utils/location_utils.py`.  Pure numeric code working on Python floats is
modelled over `ℚ` (for the route-optimisation engine, which consumes the
cost matrix only through field arithmetic and comparisons) respectively
`ℝ` (for the geometric distance function, which uses a square root).
Python's stable `sorted`/`list.sort` is modelled by `List.insertionSort`,
which is a stable sort producing the same list as any stable sort for a
total transitive relation.  A Python function that can raise is modelled
with `Option`, `none` standing for the raised exception.
-/

namespace SavingsVRP

open scoped List

/-- Vehicle type record: name, capacity and cost per kilometre
(`utils/vehicle_utils.py`, class `VehicleType`). -/
structure VehicleType where
  name : String
  capacity : ℤ
  cost_per_km : ℚ
deriving DecidableEq

/-- Customer location record (`utils/location_utils.py`,
class `CustomerLocation`).  Coordinates are real numbers, the demand is an
integer. -/
structure CustomerLocation where
  customer_id : String
  latitude : ℝ
  longitude : ℝ
  demand : ℤ

instance : Inhabited CustomerLocation := ⟨⟨"", 0, 0, 0⟩⟩

/-- Euclidean distance scaled by 100
(`utils/distance_utils.py`, `calculate_distance`). -/
noncomputable def calculate_distance (loc1 loc2 : CustomerLocation) : ℝ :=
  100 * Real.sqrt ((loc1.latitude - loc2.latitude) ^ 2 +
    (loc1.longitude - loc2.longitude) ^ 2)

/-- The full cost matrix over all locations, depot first
(`main.py`, `CombinedSavingsAlgorithm.calculate_cost_matrix`).  Row `i`,
column `j` holds the scaled distance between locations `i` and `j`. -/
noncomputable def calculate_cost_matrix (locs : List CustomerLocation) :
    List (List ℝ) :=
  (List.range locs.length).map (fun i =>
    (List.range locs.length).map (fun j =>
      calculate_distance (locs.getD i default) (locs.getD j default)))

/-- Ordering of the vehicle catalog by cost per kilometre, used by
`find_smallest_vehicle` via Python's stable `sorted`. -/
def vehicleLE (v1 v2 : VehicleType) : Prop :=
  v1.cost_per_km ≤ v2.cost_per_km

instance : DecidableRel vehicleLE := fun v1 v2 =>
  inferInstanceAs (Decidable (v1.cost_per_km ≤ v2.cost_per_km))

/-- The state of one run of the engine that is fixed throughout the run:
number of customers (`len(locations) - 1`), the demand of each 1-based
customer index, the cost matrix (as produced by `calculate_cost_matrix`,
kept abstract here), and the vehicle catalog in declaration order
(`vehicle_types.values()`). -/
structure CSA where
  n_customers : ℕ
  demand : ℕ → ℤ
  cost_matrix : ℕ → ℕ → ℚ
  vehicle_types : List VehicleType

/-- One entry of the mutable route collection `self.routes`: the customer
sequence and its assigned vehicle.  The vehicle is an `Option` because
`find_smallest_vehicle` returns `None` when no vehicle has enough
capacity, and `__init__` stores that result unconditionally. -/
structure RouteInfo where
  route : List ℕ
  vehicle : Option VehicleType
deriving DecidableEq

/-- `CombinedSavingsAlgorithm.find_smallest_vehicle`: sort the catalog by
cost per kilometre (stable) and return the first vehicle whose capacity
covers the demand, `none` when there is no such vehicle. -/
def find_smallest_vehicle (vts : List VehicleType) (demand : ℤ) :
    Option VehicleType :=
  (vts.insertionSort vehicleLE).find? (fun v => decide (demand ≤ v.capacity))

/-- The initial route collection built in
`CombinedSavingsAlgorithm.__init__`: one singleton route per customer,
with whatever `find_smallest_vehicle` returns for its demand. -/
def init_routes (s : CSA) : List RouteInfo :=
  (List.range s.n_customers).map (fun i =>
    ⟨[i + 1], find_smallest_vehicle s.vehicle_types (s.demand (i + 1))⟩)

/-- Sum of the consecutive-leg distances of a route, i.e. the loop
`for i in range(len(route) - 1)` of `calculate_route_distance`. -/
def legs_distance (cm : ℕ → ℕ → ℚ) : List ℕ → ℚ
  | [] => 0
  | [_] => 0
  | a :: b :: rest => cm a b + legs_distance cm (b :: rest)

/-- `CombinedSavingsAlgorithm.calculate_route_distance`: consecutive legs
plus the depot-to-first and last-to-depot legs.  Only ever applied to
non-empty routes, on which it agrees with the source. -/
def calculate_route_distance (cm : ℕ → ℕ → ℚ) (route : List ℕ) : ℚ :=
  legs_distance cm route + cm 0 (route.headD 0) + cm (route.getLastD 0) 0

/-- The four merge candidates generated by
`CombinedSavingsAlgorithm.combine_routes`, in source order. -/
def merged_routes (r1 r2 : List ℕ) : List (List ℕ) :=
  [r1 ++ r2, r2 ++ r1, r1.reverse ++ r2, r1 ++ r2.reverse]

/-- One step of the selection loop of `combine_routes`: the accumulator is
`none` for `min_distance = inf, best_route = None` and otherwise holds the
current minimum distance and the current best route; a candidate replaces
the incumbent only when its distance is strictly smaller. -/
def combineFold (cm : ℕ → ℕ → ℚ) (acc : Option (ℚ × List ℕ)) (r : List ℕ) :
    Option (ℚ × List ℕ) :=
  match acc with
  | none => some (calculate_route_distance cm r, r)
  | some (m, b) =>
    if calculate_route_distance cm r < m
    then some (calculate_route_distance cm r, r)
    else some (m, b)

/-- `CombinedSavingsAlgorithm.combine_routes`: fold the selection loop
over the four candidates and return the best route. -/
def combine_routes (cm : ℕ → ℕ → ℚ) (r1 r2 : List ℕ) : Option (List ℕ) :=
  ((merged_routes r1 r2).foldl (combineFold cm) none).map Prod.snd

/-- The savings list built by the two nested loops at the top of
`optimize_routes`: one triple `(saving, i, j)` for every `1 ≤ i < j ≤ n`,
enumerated with `i` ascending and `j` ascending within `i`. -/
def savingsList (s : CSA) : List (ℚ × ℕ × ℕ) :=
  (List.range s.n_customers).flatMap (fun i =>
    (List.range' (i + 1) (s.n_customers - (i + 1))).map (fun j =>
      (s.cost_matrix 0 (i + 1) + s.cost_matrix 0 (j + 1) -
        s.cost_matrix (i + 1) (j + 1), i + 1, j + 1)))

/-- Ordering used by `savings.sort(reverse=True, key=lambda x: x[0])`:
descending in the saving value. -/
def savingGE (a b : ℚ × ℕ × ℕ) : Prop := b.1 ≤ a.1

instance : DecidableRel savingGE := fun a b =>
  inferInstanceAs (Decidable (b.1 ≤ a.1))

/-- The savings list after the stable descending sort. -/
def sortedSavings (s : CSA) : List (ℚ × ℕ × ℕ) :=
  (savingsList s).insertionSort savingGE

/-- Membership lookup `next((key for key, value in self.routes.items() if
i in value["route"]), None)`: the first route entry containing customer
`c`, in insertion order. -/
def findRoute (routes : List RouteInfo) (c : ℕ) : Option RouteInfo :=
  routes.find? (fun r => decide (c ∈ r.route))

/-- Total demand of a customer sequence, as summed in `optimize_routes`. -/
def route_demand (s : CSA) (route : List ℕ) : ℤ :=
  (route.map s.demand).sum

/-- The body of the merge loop of `optimize_routes` for one savings triple
`t = (saving, i, j)`.  `none` models a Python exception: the source reads
`vehicle.cost_per_km` of both located routes, which raises
`AttributeError` when a vehicle slot holds `None`, and would pass a `None`
best route to `calculate_route_distance` if `combine_routes` ever returned
`None`.  All skip branches return the route collection unchanged. -/
def mergeStep (s : CSA) (routes : List RouteInfo) (t : ℚ × ℕ × ℕ) :
    Option (List RouteInfo) :=
  match findRoute routes t.2.1, findRoute routes t.2.2 with
  | some ri, some rj =>
    if ri.route = rj.route then some routes
    else
      match find_smallest_vehicle s.vehicle_types
          (route_demand s (ri.route ++ rj.route)) with
      | none => some routes
      | some cv =>
        match combine_routes s.cost_matrix ri.route rj.route with
        | none => none
        | some best =>
          match ri.vehicle, rj.vehicle with
          | some vi, some vj =>
            if calculate_route_distance s.cost_matrix best * cv.cost_per_km <
                calculate_route_distance s.cost_matrix ri.route * vi.cost_per_km +
                calculate_route_distance s.cost_matrix rj.route * vj.cost_per_km
            then some ((routes.filter (fun r =>
                decide (r.route ≠ ri.route ∧ r.route ≠ rj.route))) ++
                [⟨best, some cv⟩])
            else some routes
          | _, _ => none
  | _, _ => some routes

/-- One merge-loop step lifted to the `Option` state: once a step has
raised, the run stays raised. -/
def stepO (s : CSA) (acc : Option (List RouteInfo)) (t : ℚ × ℕ × ℕ) :
    Option (List RouteInfo) :=
  acc.bind (fun routes => mergeStep s routes t)

/-- `CombinedSavingsAlgorithm.optimize_routes`: the single pass of the
merge loop over the sorted savings list, starting from the initial
singleton routes. -/
def optimize_routes (s : CSA) : Option (List RouteInfo) :=
  (sortedSavings s).foldl (stepO s) (some (init_routes s))

/-- Every state of the route collection during a run: the state after
initialization followed by the state after each pass of the merge loop. -/
def runStates (s : CSA) : List (Option (List RouteInfo)) :=
  (sortedSavings s).scanl (stepO s) (some (init_routes s))

/-- Cost-per-kilometre of a vehicle slot; a `None` slot contributes 0
(it would raise in the source, and is only used where it cannot occur). -/
def vcost : Option VehicleType → ℚ
  | some v => v.cost_per_km
  | none => 0

/-- Cost of one route entry: round-trip distance times the assigned
vehicle's cost per kilometre. -/
def route_cost (cm : ℕ → ℕ → ℚ) (r : RouteInfo) : ℚ :=
  calculate_route_distance cm r.route * vcost r.vehicle

/-- Total cost over all routes of a route collection, as summed by
`print_optimized_routes`. -/
def total_cost (cm : ℕ → ℕ → ℚ) (routes : List RouteInfo) : ℚ :=
  (routes.map (route_cost cm)).sum

/-- The vehicle catalog of `data/vehicle_types.py`: Type A with capacity
25 at RM 1.2 per km, Type B with capacity 30 at RM 1.5 per km. -/
def typeA : VehicleType := ⟨"Type A", 25, 6 / 5⟩

/-- Second catalog vehicle, see `typeA`. -/
def typeB : VehicleType := ⟨"Type B", 30, 3 / 2⟩

/-- The catalog in declaration order. -/
def catalog : List VehicleType := [typeA, typeB]

/-- Concrete one-customer configuration used as evaluation input. -/
def exCSA1 : CSA := ⟨1, fun _ => 5, fun _ _ => 0, catalog⟩

/-- Concrete two-customer configuration whose combined demand 40 exceeds
every capacity in the catalog (scenario B of the spec). -/
def exCSA2 : CSA := ⟨2, fun _ => 20, fun _ _ => 0, catalog⟩

/-- Concrete one-customer configuration whose single demand 31 exceeds
every capacity in the catalog (scenario C of the spec). -/
def exCSAbad : CSA := ⟨1, fun _ => 31, fun _ _ => 0, catalog⟩

/-- Concrete two-customer configuration with unit off-diagonal costs, on
which the single candidate merge is accepted. -/
def exCSA3 : CSA := ⟨2, fun _ => 5, fun i j => if i = j then 0 else 1, catalog⟩

/-- The depot of `data/locations.py`. -/
noncomputable def exDepot : CustomerLocation := ⟨"Depot", 4.4184, 114.0932, 0⟩

/-- Customer 1 of `data/locations.py`. -/
noncomputable def exCustomer : CustomerLocation := ⟨"1", 4.3555, 113.9777, 5⟩

/-- Unfolding of `combine_routes` into its selection fold with the first
candidate already installed as the incumbent. -/
theorem combine_routes_eq_fold (cm : ℕ → ℕ → ℚ) (r1 r2 : List ℕ) :
    combine_routes cm r1 r2 =
      ([r2 ++ r1, r1.reverse ++ r2, r1 ++ r2.reverse].foldl (combineFold cm)
        (some (calculate_route_distance cm (r1 ++ r2), r1 ++ r2))).map Prod.snd :=
  rfl

/-- Specification of the selection fold of `combine_routes`, starting from
an incumbent `b`: the fold succeeds and returns the earliest candidate
(the incumbent included) that attains the minimum round-trip distance. -/
theorem combineFold_spec (cm : ℕ → ℕ → ℚ) (cands : List (List ℕ)) :
    ∀ b : List ℕ,
    ∃ bb, cands.foldl (combineFold cm)
        (some (calculate_route_distance cm b, b)) =
        some (calculate_route_distance cm bb, bb) ∧
      (∀ r ∈ b :: cands,
        calculate_route_distance cm bb ≤ calculate_route_distance cm r) ∧
      ∃ l1 l2, b :: cands = l1 ++ bb :: l2 ∧
        ∀ r ∈ l1,
          calculate_route_distance cm bb < calculate_route_distance cm r := by
  induction cands with
  | nil =>
    intro b
    exact ⟨b, rfl, by simp, [], [], rfl, by simp⟩
  | cons c rest ih =>
    intro b
    rw [List.foldl_cons]
    by_cases h : calculate_route_distance cm c < calculate_route_distance cm b
    · have hstep : combineFold cm (some (calculate_route_distance cm b, b)) c =
          some (calculate_route_distance cm c, c) := by
        simp [combineFold, if_pos h]
      rw [hstep]
      obtain ⟨bb, heq, hmin, l1, l2, hdec, hstrict⟩ := ih c
      refine ⟨bb, heq, ?_, b :: l1, l2, ?_, ?_⟩
      · intro r hr
        rcases List.mem_cons.mp hr with rfl | hr
        · exact (hmin c (List.mem_cons_self c rest)).trans h.le
        · exact hmin r hr
      · rw [List.cons_append, ← hdec]
      · intro r hr
        rcases List.mem_cons.mp hr with rfl | hr
        · exact lt_of_le_of_lt (hmin c (List.mem_cons_self c rest)) h
        · exact hstrict r hr
    · have hbc : calculate_route_distance cm b ≤ calculate_route_distance cm c :=
        le_of_not_lt h
      have hstep : combineFold cm (some (calculate_route_distance cm b, b)) c =
          some (calculate_route_distance cm b, b) := by
        simp [combineFold, if_neg h]
      rw [hstep]
      obtain ⟨bb, heq, hmin, l1, l2, hdec, hstrict⟩ := ih b
      have hminc : ∀ r ∈ b :: c :: rest,
          calculate_route_distance cm bb ≤ calculate_route_distance cm r := by
        intro r hr
        rcases List.mem_cons.mp hr with rfl | hr
        · exact hmin r (List.mem_cons_self r rest)
        rcases List.mem_cons.mp hr with rfl | hr
        · exact (hmin b (List.mem_cons_self b rest)).trans hbc
        · exact hmin r (List.mem_cons_of_mem b hr)
      cases l1 with
      | nil =>
        obtain ⟨hbb, -⟩ : b = bb ∧ rest = l2 := by
          simpa using hdec
        refine ⟨bb, heq, hminc, [], c :: rest, ?_, by simp⟩
        rw [List.nil_append, ← hbb]
      | cons x l1t =>
        obtain ⟨hbx, hrest⟩ : b = x ∧ rest = l1t ++ bb :: l2 := by
          simpa using hdec
        subst hbx
        refine ⟨bb, heq, hminc, b :: c :: l1t, l2, ?_, ?_⟩
        · rw [hrest]; rfl
        · intro r hr
          have hbbb : calculate_route_distance cm bb <
              calculate_route_distance cm b :=
            hstrict b (List.mem_cons_self b l1t)
          rcases List.mem_cons.mp hr with rfl | hr
          · exact hbbb
          rcases List.mem_cons.mp hr with rfl | hr
          · exact lt_of_lt_of_le hbbb hbc
          · exact hstrict r (List.mem_cons_of_mem b hr)

/-- Every candidate generated by `combine_routes` is a rearrangement of
the two input routes. -/
theorem mem_merged_routes_perm {r1 r2 r : List ℕ}
    (h : r ∈ merged_routes r1 r2) : r.Perm (r1 ++ r2) := by
  simp only [merged_routes, List.mem_cons, List.mem_singleton,
    List.not_mem_nil, or_false] at h
  rcases h with rfl | rfl | rfl | rfl
  · exact List.Perm.refl _
  · exact List.perm_append_comm
  · exact (List.reverse_perm r1).append_right r2
  · exact (List.reverse_perm r2).append_left r1

/-- The route returned by `combine_routes` is a rearrangement of the
concatenation of the two input routes. -/
theorem combine_routes_perm_helper {cm : ℕ → ℕ → ℚ} {r1 r2 b : List ℕ}
    (h : combine_routes cm r1 r2 = some b) : b.Perm (r1 ++ r2) := by
  obtain ⟨bb, heq, hmin, l1, l2, hdec, hstrict⟩ :=
    combineFold_spec cm [r2 ++ r1, r1.reverse ++ r2, r1 ++ r2.reverse] (r1 ++ r2)
  rw [combine_routes_eq_fold, heq] at h
  have hb : b = bb := (Option.some.inj h).symm
  subst hb
  have hmem : b ∈ merged_routes r1 r2 := by
    show b ∈ (r1 ++ r2) :: [r2 ++ r1, r1.reverse ++ r2, r1 ++ r2.reverse]
    rw [hdec]
    exact List.mem_append_right l1 (List.mem_cons_self b l2)
  exact mem_merged_routes_perm hmem

/-- C6: given two routes, the merge evaluator generates exactly the four
candidate sequences `route1+route2`, `route2+route1`,
`reverse(route1)+route2` and `route1+reverse(route2)`, always returns a
result, and that result is the candidate with minimum round-trip distance,
ties broken in favour of the candidate generated first (every
strictly-earlier candidate has a strictly larger distance). -/
theorem combine_routes_best (cm : ℕ → ℕ → ℚ) (r1 r2 : List ℕ) :
    merged_routes r1 r2 =
      [r1 ++ r2, r2 ++ r1, r1.reverse ++ r2, r1 ++ r2.reverse] ∧
    ∃ b l1 l2, combine_routes cm r1 r2 = some b ∧
      merged_routes r1 r2 = l1 ++ b :: l2 ∧
      (∀ r ∈ merged_routes r1 r2,
        calculate_route_distance cm b ≤ calculate_route_distance cm r) ∧
      ∀ r ∈ l1, calculate_route_distance cm b < calculate_route_distance cm r := by
  refine ⟨rfl, ?_⟩
  obtain ⟨bb, heq, hmin, l1, l2, hdec, hstrict⟩ :=
    combineFold_spec cm [r2 ++ r1, r1.reverse ++ r2, r1 ++ r2.reverse] (r1 ++ r2)
  exact ⟨bb, l1, l2, by rw [combine_routes_eq_fold, heq]; rfl, hdec, hmin, hstrict⟩

/-- Witness for `combine_routes_best` at a concrete input. -/
theorem combine_routes_best_witness :
    merged_routes [1] [2] =
      [[1] ++ [2], [2] ++ [1], [1].reverse ++ [2], [1] ++ [2].reverse] ∧
    ∃ b l1 l2, combine_routes (fun _ _ => 0) [1] [2] = some b ∧
      merged_routes [1] [2] = l1 ++ b :: l2 ∧
      (∀ r ∈ merged_routes [1] [2],
        calculate_route_distance (fun _ _ => 0) b ≤
          calculate_route_distance (fun _ _ => 0) r) ∧
      ∀ r ∈ l1, calculate_route_distance (fun _ _ => 0) b <
        calculate_route_distance (fun _ _ => 0) r :=
  combine_routes_best (fun _ _ => 0) [1] [2]

/-- C10: the sequence returned by the merge evaluator is a permutation of
`route1 ++ route2`: merging never drops, duplicates, or invents a
customer. -/
theorem combine_routes_perm (cm : ℕ → ℕ → ℚ) (r1 r2 b : List ℕ)
    (h : combine_routes cm r1 r2 = some b) : b.Perm (r1 ++ r2) :=
  combine_routes_perm_helper h

/-- Witness for `combine_routes_perm` at a concrete input. -/
theorem combine_routes_perm_witness :
    ([1, 2] : List ℕ).Perm ([1] ++ [2]) :=
  combine_routes_perm (fun _ _ => 0) [1] [2] [1, 2] (by with_unfolding_all decide)

instance : IsTotal VehicleType vehicleLE :=
  ⟨fun a b => le_total a.cost_per_km b.cost_per_km⟩

instance : IsTrans VehicleType vehicleLE :=
  ⟨fun _ _ _ h1 h2 => le_trans h1 h2⟩

instance : IsTotal (ℚ × ℕ × ℕ) savingGE :=
  ⟨fun a b => le_total b.1 a.1⟩

instance : IsTrans (ℚ × ℕ × ℕ) savingGE :=
  ⟨fun _ _ _ h1 h2 => le_trans h2 h1⟩

/-- C7: for any demand and any duplicate-free vehicle catalog, the vehicle
selector never crashes: it returns an explicit `none` exactly when no
vehicle has sufficient capacity, and otherwise returns a vehicle of the
catalog that covers the demand, has minimal cost-per-km among the
covering vehicles, and beats every covering vehicle listed earlier in the
catalog strictly (the tie on equal cost-per-km is broken by catalog
order). -/
theorem find_smallest_vehicle_spec (vts : List VehicleType) (d : ℤ)
    (hnd : vts.Nodup) :
    (find_smallest_vehicle vts d = none ↔ ∀ u ∈ vts, ¬ d ≤ u.capacity) ∧
    ∀ v, find_smallest_vehicle vts d = some v →
      v ∈ vts ∧ d ≤ v.capacity ∧
      (∀ u ∈ vts, d ≤ u.capacity → v.cost_per_km ≤ u.cost_per_km) ∧
      ∀ u, [u, v] <+ vts → d ≤ u.capacity →
        v.cost_per_km < u.cost_per_km := by
  constructor
  · rw [find_smallest_vehicle, List.find?_eq_none]
    simp only [List.mem_insertionSort, decide_eq_true_eq]
  intro v hv
  rw [find_smallest_vehicle] at hv
  obtain ⟨hp, as, bs, hsplit, hfail⟩ := List.find?_eq_some.mp hv
  have hcapv : d ≤ v.capacity := of_decide_eq_true hp
  have hmemv : v ∈ vts := by
    rw [← List.mem_insertionSort vehicleLE, hsplit]
    exact List.mem_append_right as (List.mem_cons_self v bs)
  have hfail' : ∀ a ∈ as, ¬ d ≤ a.capacity := by
    intro a ha hcap
    have := hfail a ha
    simp only [Bool.not_eq_eq_eq_not, Bool.not_true, decide_eq_false_iff_not] at this
    exact this hcap
  have hsorted : (vts.insertionSort vehicleLE).Sorted vehicleLE :=
    List.sorted_insertionSort vehicleLE vts
  rw [hsplit] at hsorted
  have hmin : ∀ u ∈ vts, d ≤ u.capacity → v.cost_per_km ≤ u.cost_per_km := by
    intro u hu hcap
    have hu' : u ∈ as ++ v :: bs := by
      rw [← hsplit]
      exact (List.mem_insertionSort vehicleLE).mpr hu
    rcases List.mem_append.mp hu' with hu' | hu'
    · exact absurd hcap (hfail' u hu')
    rcases List.mem_cons.mp hu' with rfl | hu'
    · exact le_refl _
    · exact List.rel_of_pairwise_cons (List.pairwise_append.mp hsorted).2.1 hu'
  refine ⟨hmemv, hcapv, hmin, ?_⟩
  intro u hsub hcap
  have hmemu : u ∈ vts := hsub.subset (List.mem_cons_self u [v])
  by_contra hnlt
  have huv : vehicleLE u v := le_of_not_lt hnlt
  have hpair : [u, v] <+ vts.insertionSort vehicleLE :=
    List.pair_sublist_insertionSort huv hsub
  have hLnd : (vts.insertionSort vehicleLE).Nodup :=
    (List.perm_insertionSort vehicleLE vts).nodup_iff.mpr hnd
  rw [hsplit] at hpair hLnd
  have hvbs : v ∉ bs :=
    (List.nodup_cons.mp (List.nodup_append.mp hLnd).2.1).1
  obtain ⟨p1, p2, hpp, hsub1, hsub2⟩ := List.sublist_append_iff.mp hpair
  match p1, hpp with
  | [], hpp =>
    rw [List.nil_append] at hpp
    rw [← hpp] at hsub2
    cases hsub2 with
    | cons _ h => exact hvbs (h.subset (by simp))
    | cons₂ _ h => exact hvbs (h.subset (by simp))
  | [x], hpp =>
    simp only [List.cons_append, List.nil_append, List.cons.injEq] at hpp
    obtain ⟨rfl, hpp2⟩ := hpp
    exact hfail' u (hsub1.subset (by simp)) hcap
  | x :: y :: p1t, hpp =>
    simp only [List.cons_append, List.cons.injEq] at hpp
    obtain ⟨rfl, rfl, hpp2⟩ := hpp
    have : p1t = [] ∧ p2 = [] := by
      cases p1t with
      | nil => exact ⟨rfl, hpp2.symm ▸ rfl⟩
      | cons z zs => simp at hpp2
    obtain ⟨rfl, -⟩ := this
    exact absurd hcapv (hfail' v (hsub1.subset (by simp)))

/-- Witness for `find_smallest_vehicle_spec` at the repository catalog
and demand 10. -/
theorem find_smallest_vehicle_spec_witness :
    (find_smallest_vehicle catalog 10 = none ↔
      ∀ u ∈ catalog, ¬ (10 : ℤ) ≤ u.capacity) ∧
    ∀ v, find_smallest_vehicle catalog 10 = some v →
      v ∈ catalog ∧ (10 : ℤ) ≤ v.capacity ∧
      (∀ u ∈ catalog, (10 : ℤ) ≤ u.capacity →
        v.cost_per_km ≤ u.cost_per_km) ∧
      ∀ u, [u, v] <+ catalog → (10 : ℤ) ≤ u.capacity →
        v.cost_per_km < u.cost_per_km :=
  find_smallest_vehicle_spec catalog 10 (by with_unfolding_all decide)

/-- Characterisation of membership in the savings list: one triple for
every pair `1 ≤ i < j ≤ n`, carrying the Clarke-Wright saving value read
off the initial cost matrix. -/
theorem savings_mem (s : CSA) (v : ℚ) (i j : ℕ) :
    (v, i, j) ∈ savingsList s ↔
      1 ≤ i ∧ i < j ∧ j ≤ s.n_customers ∧
        v = s.cost_matrix 0 i + s.cost_matrix 0 j - s.cost_matrix i j := by
  simp only [savingsList, List.mem_flatMap, List.mem_map, List.mem_range,
    List.mem_range', Prod.mk.injEq]
  constructor
  · rintro ⟨a, ha, b, ⟨k, hk, rfl⟩, hv, hi, hj⟩
    subst hi
    subst hj
    subst hv
    exact ⟨by omega, by omega, by omega, rfl⟩
  · rintro ⟨h1, h2, h3, rfl⟩
    have e1 : i - 1 + 1 = i := by omega
    have e2 : j - 1 + 1 = j := by omega
    refine ⟨i - 1, by omega, j - 1, ⟨j - i - 1, by omega, by omega⟩, ?_⟩
    rw [e1, e2]
    exact ⟨rfl, rfl, rfl⟩

/-- The enumeration of the savings list is strictly increasing in the
lexicographic order of the customer pair. -/
theorem savings_pairwise (s : CSA) :
    (savingsList s).Pairwise (fun a b =>
      a.2.1 < b.2.1 ∨ (a.2.1 = b.2.1 ∧ a.2.2 < b.2.2)) := by
  rw [savingsList, List.pairwise_flatMap]
  constructor
  · intro a _
    rw [List.pairwise_map]
    refine List.Pairwise.imp ?_
      (List.pairwise_lt_range' (a + 1) (s.n_customers - (a + 1)) 1)
    intro x y hxy
    dsimp only
    exact Or.inr ⟨rfl, by omega⟩
  · refine List.Pairwise.imp ?_ (List.pairwise_lt_range s.n_customers)
    intro a b hab
    intro x hx y hy
    simp only [List.mem_map] at hx hy
    obtain ⟨xa, _, rfl⟩ := hx
    obtain ⟨ya, _, rfl⟩ := hy
    dsimp only
    exact Or.inl (by omega)

/-- No customer pair appears twice in the savings list. -/
theorem savings_pairs_nodup (s : CSA) :
    ((savingsList s).map (fun t => (t.2.1, t.2.2))).Nodup := by
  rw [List.Nodup, List.pairwise_map]
  refine List.Pairwise.imp ?_ (savings_pairwise s)
  intro a b h he
  have e1 : a.2.1 = b.2.1 := congrArg Prod.fst he
  have e2 : a.2.2 = b.2.2 := congrArg Prod.snd he
  rcases h with h | ⟨h1, h2⟩ <;> omega

/-- C5: the savings engine computes, once and before any merge, exactly
one saving per unordered customer pair, with the Clarke-Wright value read
off the initial cost matrix; the processed list is a permutation of that
enumeration, sorted by descending saving value, and triples with equal
saving value keep their enumeration order (`i` ascending, then `j`
ascending within `i`). -/
theorem savings_engine_spec (s : CSA) :
    (∀ v i j, (v, i, j) ∈ savingsList s ↔
      1 ≤ i ∧ i < j ∧ j ≤ s.n_customers ∧
        v = s.cost_matrix 0 i + s.cost_matrix 0 j - s.cost_matrix i j) ∧
    ((savingsList s).map (fun t => (t.2.1, t.2.2))).Nodup ∧
    (sortedSavings s).Perm (savingsList s) ∧
    (sortedSavings s).Pairwise (fun a b => b.1 ≤ a.1) ∧
    ∀ a b : ℚ × ℕ × ℕ, a.1 = b.1 → [a, b] <+ savingsList s →
      [a, b] <+ sortedSavings s := by
  refine ⟨savings_mem s, savings_pairs_nodup s,
    List.perm_insertionSort savingGE (savingsList s),
    List.sorted_insertionSort savingGE (savingsList s), ?_⟩
  intro a b hab hsub
  exact List.pair_sublist_insertionSort (le_of_eq hab.symm) hsub

/-- Witness for `savings_engine_spec` at a concrete configuration. -/
theorem savings_engine_spec_witness :
    (∀ v i j, (v, i, j) ∈ savingsList exCSA2 ↔
      1 ≤ i ∧ i < j ∧ j ≤ exCSA2.n_customers ∧
        v = exCSA2.cost_matrix 0 i + exCSA2.cost_matrix 0 j -
          exCSA2.cost_matrix i j) ∧
    ((savingsList exCSA2).map (fun t => (t.2.1, t.2.2))).Nodup ∧
    (sortedSavings exCSA2).Perm (savingsList exCSA2) ∧
    (sortedSavings exCSA2).Pairwise (fun a b => b.1 ≤ a.1) ∧
    ∀ a b : ℚ × ℕ × ℕ, a.1 = b.1 → [a, b] <+ savingsList exCSA2 →
      [a, b] <+ sortedSavings exCSA2 :=
  savings_engine_spec exCSA2

/-- The scaled Euclidean distance is symmetric in its two locations. -/
theorem calculate_distance_comm (a b : CustomerLocation) :
    calculate_distance a b = calculate_distance b a := by
  have h : (a.latitude - b.latitude) ^ 2 + (a.longitude - b.longitude) ^ 2 =
      (b.latitude - a.latitude) ^ 2 + (b.longitude - a.longitude) ^ 2 := by
    ring
  rw [calculate_distance, calculate_distance, h]

/-- The scaled Euclidean distance from a location to itself is zero. -/
theorem calculate_distance_self (a : CustomerLocation) :
    calculate_distance a a = 0 := by
  rw [calculate_distance]
  simp

/-- Entry `(i, j)` of the cost matrix is the scaled distance between
locations `i` and `j`. -/
theorem cost_matrix_entry (locs : List CustomerLocation) (i j : ℕ)
    (hi : i < locs.length) (hj : j < locs.length) :
    ((calculate_cost_matrix locs).getD i []).getD j (0 : ℝ) =
      calculate_distance (locs.getD i default) (locs.getD j default) := by
  rw [calculate_cost_matrix]
  simp [List.getElem?_range hi, List.getElem?_range hj]

/-- C8: the cost matrix built over depot plus customers is square of size
`1 + customer count`, every entry `(i, j)` is
`100 * sqrt((lat_i - lat_j)^2 + (lon_i - lon_j)^2)`, the diagonal is zero,
and the matrix is symmetric. -/
theorem cost_matrix_spec (depot : CustomerLocation)
    (customers : List CustomerLocation) :
    (calculate_cost_matrix (depot :: customers)).length = 1 + customers.length ∧
    (∀ row ∈ calculate_cost_matrix (depot :: customers),
      row.length = 1 + customers.length) ∧
    (∀ i j, i < (depot :: customers).length → j < (depot :: customers).length →
      ((calculate_cost_matrix (depot :: customers)).getD i []).getD j (0 : ℝ) =
        100 * Real.sqrt
          ((((depot :: customers).getD i default).latitude -
              ((depot :: customers).getD j default).latitude) ^ 2 +
            (((depot :: customers).getD i default).longitude -
              ((depot :: customers).getD j default).longitude) ^ 2)) ∧
    (∀ i, i < (depot :: customers).length →
      ((calculate_cost_matrix (depot :: customers)).getD i []).getD i (0 : ℝ) = 0) ∧
    ∀ i j, i < (depot :: customers).length → j < (depot :: customers).length →
      ((calculate_cost_matrix (depot :: customers)).getD i []).getD j (0 : ℝ) =
      ((calculate_cost_matrix (depot :: customers)).getD j []).getD i (0 : ℝ) := by
  refine ⟨?_, ?_, ?_, ?_, ?_⟩
  · simp [calculate_cost_matrix, Nat.add_comm]
  · intro row hrow
    rw [calculate_cost_matrix] at hrow
    obtain ⟨k, -, rfl⟩ := List.mem_map.mp hrow
    simp [Nat.add_comm]
  · intro i j hi hj
    rw [cost_matrix_entry (depot :: customers) i j hi hj, calculate_distance]
  · intro i hi
    rw [cost_matrix_entry (depot :: customers) i i hi hi,
      calculate_distance_self]
  · intro i j hi hj
    rw [cost_matrix_entry (depot :: customers) i j hi hj,
      cost_matrix_entry (depot :: customers) j i hj hi,
      calculate_distance_comm]

/-- Witness for `cost_matrix_spec` at the depot and customer 1 of the
repository data. -/
theorem cost_matrix_spec_witness :
    (calculate_cost_matrix (exDepot :: [exCustomer])).length = 1 + 1 ∧
    (∀ row ∈ calculate_cost_matrix (exDepot :: [exCustomer]),
      row.length = 1 + 1) ∧
    (∀ i j, i < (exDepot :: [exCustomer]).length →
      j < (exDepot :: [exCustomer]).length →
      ((calculate_cost_matrix (exDepot :: [exCustomer])).getD i []).getD j (0 : ℝ) =
        100 * Real.sqrt
          ((((exDepot :: [exCustomer]).getD i default).latitude -
              ((exDepot :: [exCustomer]).getD j default).latitude) ^ 2 +
            (((exDepot :: [exCustomer]).getD i default).longitude -
              ((exDepot :: [exCustomer]).getD j default).longitude) ^ 2)) ∧
    (∀ i, i < (exDepot :: [exCustomer]).length →
      ((calculate_cost_matrix (exDepot :: [exCustomer])).getD i []).getD i (0 : ℝ) = 0) ∧
    ∀ i j, i < (exDepot :: [exCustomer]).length →
      j < (exDepot :: [exCustomer]).length →
      ((calculate_cost_matrix (exDepot :: [exCustomer])).getD i []).getD j (0 : ℝ) =
      ((calculate_cost_matrix (exDepot :: [exCustomer])).getD j []).getD i (0 : ℝ) := by
  have h := cost_matrix_spec exDepot [exCustomer]
  simpa using h

/-- The membership lookup returns an entry of the collection that does
contain the requested customer. -/
theorem findRoute_mem {routes : List RouteInfo} {c : ℕ} {r : RouteInfo}
    (h : findRoute routes c = some r) : r ∈ routes ∧ c ∈ r.route := by
  rw [findRoute] at h
  refine ⟨List.mem_of_find?_eq_some h, ?_⟩
  have hp := List.find?_some h
  exact of_decide_eq_true hp

/-- If the customer sequences of a route collection flatten to a
duplicate-free list, then a non-empty sequence occurring in the collection
occurs in exactly one entry. -/
theorem count_route_entries {routes : List RouteInfo} {a : List ℕ} {x : ℕ}
    (hx : x ∈ a) (ha : ∃ e ∈ routes, e.route = a)
    (hnd : ((routes.map RouteInfo.route).flatten).Nodup) :
    routes.countP (fun e => decide (e.route = a)) = 1 := by
  induction routes with
  | nil =>
    obtain ⟨e, he, -⟩ := ha
    exact absurd he (List.not_mem_nil e)
  | cons r rest ih =>
    rw [List.map_cons, List.flatten_cons] at hnd
    obtain ⟨-, hnd2, hdisj⟩ := List.nodup_append.mp hnd
    rw [List.countP_cons]
    by_cases hr : r.route = a
    · have hz : rest.countP (fun e => decide (e.route = a)) = 0 := by
        rw [List.countP_eq_zero]
        intro e he hea
        have hea' : e.route = a := of_decide_eq_true hea
        have hx2 : x ∈ (rest.map RouteInfo.route).flatten :=
          List.mem_flatten_of_mem (List.mem_map_of_mem RouteInfo.route he)
            (by rw [hea']; exact hx)
        exact hdisj (by rw [hr]; exact hx) hx2
      simp [hz, hr]
    · obtain ⟨e, he, hea⟩ := ha
      have he' : e ∈ rest := by
        rcases List.mem_cons.mp he with rfl | h
        · exact absurd hea hr
        · exact h
      have := ih ⟨e, he', hea⟩ hnd2
      simp [this, hr]

/-- An entry whose customer sequence occurs in exactly one entry can be
pulled to the front, the rest being the entries with a different
sequence. -/
theorem perm_cons_filter_of_countP_one {e : RouteInfo} {routes : List RouteInfo}
    (he : e ∈ routes)
    (h1 : routes.countP (fun r => decide (r.route = e.route)) = 1) :
    routes.Perm (e :: routes.filter (fun r => decide (r.route ≠ e.route))) := by
  induction routes with
  | nil => exact absurd he (List.not_mem_nil e)
  | cons r rest ih =>
    rw [List.countP_cons] at h1
    by_cases hr : r.route = e.route
    · rw [if_pos (by simp [hr])] at h1
      have hz : rest.countP (fun r => decide (r.route = e.route)) = 0 := by omega
      have her : e = r := by
        rcases List.mem_cons.mp he with rfl | hmem
        · rfl
        · exfalso
          have : 0 < rest.countP (fun r => decide (r.route = e.route)) :=
            List.countP_pos_iff.mpr ⟨e, hmem, by simp⟩
          omega
      subst her
      have hfil : rest.filter (fun r => decide (r.route ≠ e.route)) = rest := by
        rw [List.filter_eq_self]
        intro a ha
        have hne : ¬ a.route = e.route := by
          intro hc
          have : 0 < rest.countP (fun r => decide (r.route = e.route)) :=
            List.countP_pos_iff.mpr ⟨a, ha, by simp [hc]⟩
          omega
        simp [hne]
      rw [List.filter_cons_of_neg (by simp), hfil]
    · rw [if_neg (by simp [hr])] at h1
      have he' : e ∈ rest := by
        rcases List.mem_cons.mp he with rfl | hmem
        · exact absurd rfl hr
        · exact hmem
      have ih' := ih he' h1
      rw [List.filter_cons_of_pos (by simp [hr])]
      exact (ih'.cons r).trans (List.Perm.swap e r _)

/-- Two entries with distinct customer sequences, each occurring exactly
once, can be pulled to the front, the remainder being exactly the entries
the merge loop keeps. -/
theorem two_entry_decomp {routes : List RouteInfo} {ri rj : RouteInfo}
    (hi : ri ∈ routes) (hj : rj ∈ routes) (hne : ri.route ≠ rj.route)
    (ci : routes.countP (fun r => decide (r.route = ri.route)) = 1)
    (cj : routes.countP (fun r => decide (r.route = rj.route)) = 1) :
    routes.Perm (ri :: rj :: routes.filter (fun r =>
      decide (r.route ≠ ri.route ∧ r.route ≠ rj.route))) := by
  have p1 := perm_cons_filter_of_countP_one hi ci
  have hj' : rj ∈ routes.filter (fun r => decide (r.route ≠ ri.route)) := by
    rw [List.mem_filter]
    exact ⟨hj, by simp [Ne.symm hne]⟩
  have cj' : (routes.filter (fun r => decide (r.route ≠ ri.route))).countP
      (fun r => decide (r.route = rj.route)) = 1 := by
    rw [List.countP_filter, ← cj]
    apply List.countP_congr
    intro a _
    constructor
    · intro h
      simp only [Bool.and_eq_true, decide_eq_true_eq] at h
      simp [h.1]
    · intro h
      simp only [decide_eq_true_eq] at h
      have har : ¬ rj.route = ri.route := Ne.symm hne
      simp [h, har]
  have p2 := perm_cons_filter_of_countP_one hj' cj'
  have hff : (routes.filter (fun r => decide (r.route ≠ ri.route))).filter
      (fun r => decide (r.route ≠ rj.route)) =
      routes.filter (fun r =>
        decide (r.route ≠ ri.route ∧ r.route ≠ rj.route)) := by
    rw [List.filter_filter]
    apply List.filter_congr
    intro a _
    simp [Bool.decide_and, Bool.and_comm]
  rw [hff] at p2
  exact p1.trans (p2.cons ri)

/-- Complete case analysis of one successful merge-loop pass: either it
was a skip (collection returned unchanged) or all accept conditions held
and the two located routes were replaced by the merged one. -/
theorem mergeStep_cases (s : CSA) (routes : List RouteInfo) (t : ℚ × ℕ × ℕ)
    (routes' : List RouteInfo) (h : mergeStep s routes t = some routes') :
    routes' = routes ∨
    ∃ ri rj cv best vi vj,
      findRoute routes t.2.1 = some ri ∧ findRoute routes t.2.2 = some rj ∧
      ri.route ≠ rj.route ∧
      find_smallest_vehicle s.vehicle_types
        (route_demand s (ri.route ++ rj.route)) = some cv ∧
      combine_routes s.cost_matrix ri.route rj.route = some best ∧
      ri.vehicle = some vi ∧ rj.vehicle = some vj ∧
      calculate_route_distance s.cost_matrix best * cv.cost_per_km <
        calculate_route_distance s.cost_matrix ri.route * vi.cost_per_km +
        calculate_route_distance s.cost_matrix rj.route * vj.cost_per_km ∧
      routes' = routes.filter (fun r =>
        decide (r.route ≠ ri.route ∧ r.route ≠ rj.route)) ++
        [⟨best, some cv⟩] := by
  unfold mergeStep at h
  cases hfi : findRoute routes t.2.1 with
  | none =>
    rw [hfi] at h
    exact Or.inl (Option.some.inj h).symm
  | some ri =>
    rw [hfi] at h
    cases hfj : findRoute routes t.2.2 with
    | none =>
      rw [hfj] at h
      exact Or.inl (Option.some.inj h).symm
    | some rj =>
      rw [hfj] at h
      dsimp only at h
      by_cases hrr : ri.route = rj.route
      · rw [if_pos hrr] at h
        exact Or.inl (Option.some.inj h).symm
      rw [if_neg hrr] at h
      cases hfs : find_smallest_vehicle s.vehicle_types
          (route_demand s (ri.route ++ rj.route)) with
      | none =>
        rw [hfs] at h
        exact Or.inl (Option.some.inj h).symm
      | some cv =>
        rw [hfs] at h
        dsimp only at h
        cases hcb : combine_routes s.cost_matrix ri.route rj.route with
        | none =>
          rw [hcb] at h
          exact Option.noConfusion h
        | some best =>
          rw [hcb] at h
          dsimp only at h
          cases hvi : ri.vehicle with
          | none =>
            rw [hvi] at h
            exact Option.noConfusion h
          | some vi =>
            rw [hvi] at h
            cases hvj : rj.vehicle with
            | none =>
              rw [hvj] at h
              exact Option.noConfusion h
            | some vj =>
              rw [hvj] at h
              dsimp only at h
              by_cases hlt : calculate_route_distance s.cost_matrix best *
                  cv.cost_per_km <
                  calculate_route_distance s.cost_matrix ri.route *
                    vi.cost_per_km +
                  calculate_route_distance s.cost_matrix rj.route *
                    vj.cost_per_km
              · rw [if_pos hlt] at h
                exact Or.inr ⟨ri, rj, cv, best, vi, vj, rfl, rfl, hrr, hfs,
                  hcb, hvi, hvj, hlt, (Option.some.inj h).symm⟩
              · rw [if_neg hlt] at h
                exact Or.inl (Option.some.inj h).symm

/-- A property preserved by the folded function holds at every state that
`scanl` produces from a state that has it. -/
theorem scanl_inv {α β : Type} (f : β → α → β) (P : β → Prop)
    (hstep : ∀ acc t, P acc → P (f acc t)) :
    ∀ (l : List α) (init : β), P init → ∀ st ∈ l.scanl f init, P st := by
  intro l
  induction l with
  | nil =>
    intro init h st hst
    rw [List.scanl_nil, List.mem_singleton] at hst
    rwa [hst]
  | cons a l ih =>
    intro init h st hst
    rw [List.scanl_cons] at hst
    rcases List.mem_append.mp hst with hst | hst
    · rw [List.mem_singleton] at hst
      rwa [hst]
    · exact ih (f init a) (hstep init a h) st hst

/-- A property preserved by the folded function holds at the final state
of `foldl` from a state that has it. -/
theorem foldl_inv {α β : Type} (f : β → α → β) (P : β → Prop)
    (hstep : ∀ acc t, P acc → P (f acc t)) :
    ∀ (l : List α) (init : β), P init → P (l.foldl f init) := by
  intro l
  induction l with
  | nil => intro init h; rwa [List.foldl_nil]
  | cons a l ih =>
    intro init h
    rw [List.foldl_cons]
    exact ih (f init a) (hstep init a h)

/-- Flattening a list of singletons gives back the mapped list. -/
theorem flatten_singleton_map {α β : Type} (f : α → β) (l : List α) :
    (l.map (fun i => [f i])).flatten = l.map f := by
  induction l with
  | nil => rfl
  | cons a l ih => simp [ih]

/-- One merge-loop pass preserves the multiset of customers spread over
the route collection. -/
theorem mergeStep_flatten_perm {s : CSA} {routes routes' : List RouteInfo}
    {t : ℚ × ℕ × ℕ} {L : List ℕ} (hL : L.Nodup)
    (hperm : ((routes.map RouteInfo.route).flatten).Perm L)
    (h : mergeStep s routes t = some routes') :
    ((routes'.map RouteInfo.route).flatten).Perm L := by
  rcases mergeStep_cases s routes t routes' h with rfl |
    ⟨ri, rj, cv, best, vi, vj, hfi, hfj, hrr, hfs, hcb, hvi, hvj, hlt, rfl⟩
  · exact hperm
  obtain ⟨hmi, hci⟩ := findRoute_mem hfi
  obtain ⟨hmj, hcj⟩ := findRoute_mem hfj
  have hnd : ((routes.map RouteInfo.route).flatten).Nodup :=
    hperm.nodup_iff.mpr hL
  have ci : routes.countP (fun r => decide (r.route = ri.route)) = 1 :=
    count_route_entries hci ⟨ri, hmi, rfl⟩ hnd
  have cj : routes.countP (fun r => decide (r.route = rj.route)) = 1 :=
    count_route_entries hcj ⟨rj, hmj, rfl⟩ hnd
  have hdec := two_entry_decomp hmi hmj hrr ci cj
  have hbperm : best.Perm (ri.route ++ rj.route) := combine_routes_perm_helper hcb
  have hflat : ((routes.map RouteInfo.route).flatten).Perm
      (ri.route ++ rj.route ++
        (((routes.filter (fun r =>
          decide (r.route ≠ ri.route ∧ r.route ≠ rj.route))).map
            RouteInfo.route).flatten)) := by
    refine ((hdec.map RouteInfo.route).flatten).trans ?_
    simp [List.append_assoc]
  have hgoal : ((((routes.filter (fun r =>
      decide (r.route ≠ ri.route ∧ r.route ≠ rj.route))) ++
      [(⟨best, some cv⟩ : RouteInfo)]).map RouteInfo.route).flatten).Perm
      ((routes.map RouteInfo.route).flatten) := by
    rw [List.map_append, List.flatten_append]
    simp only [List.map_cons, List.map_nil, List.flatten_cons,
      List.flatten_nil, List.append_nil]
    refine List.Perm.trans ?_ hflat.symm
    calc ((routes.filter (fun r =>
          decide (r.route ≠ ri.route ∧ r.route ≠ rj.route))).map
            RouteInfo.route).flatten ++ best
        ~ ((routes.filter (fun r =>
            decide (r.route ≠ ri.route ∧ r.route ≠ rj.route))).map
              RouteInfo.route).flatten ++ (ri.route ++ rj.route) :=
          List.Perm.append_left _ hbperm
      _ ~ (ri.route ++ rj.route) ++ ((routes.filter (fun r =>
            decide (r.route ≠ ri.route ∧ r.route ≠ rj.route))).map
              RouteInfo.route).flatten := List.perm_append_comm
  exact hgoal.trans hperm

/-- C1: at every state of every run — after initialization and after every
pass of the merge loop — the customer sequences of the route collection
are jointly a permutation of the full customer index list `[1..n]`: every
customer appears in exactly one route, with no duplicates and no
omissions. -/
theorem partition_invariant (s : CSA) (st : Option (List RouteInfo))
    (hst : st ∈ runStates s) (routes : List RouteInfo)
    (heq : st = some routes) :
    ((routes.map RouteInfo.route).flatten).Perm
      (List.range' 1 s.n_customers) := by
  subst heq
  have hinit : ∀ r : List RouteInfo, some (init_routes s) = some r →
      ((r.map RouteInfo.route).flatten).Perm (List.range' 1 s.n_customers) := by
    intro r hr
    obtain rfl : init_routes s = r := Option.some.inj hr
    rw [init_routes, List.map_map]
    have hmm : (RouteInfo.route ∘ fun i =>
        (⟨[i + 1], find_smallest_vehicle s.vehicle_types
          (s.demand (i + 1))⟩ : RouteInfo)) = fun i => [i + 1] := rfl
    rw [hmm, flatten_singleton_map (fun i => i + 1) (List.range s.n_customers)]
    rw [List.range'_eq_map_range]
    refine List.Perm.of_eq (List.map_congr_left ?_)
    intro a _
    omega
  refine scanl_inv (stepO s)
    (fun o => ∀ r, o = some r →
      ((r.map RouteInfo.route).flatten).Perm (List.range' 1 s.n_customers))
    ?_ (sortedSavings s) (some (init_routes s)) hinit (some routes) hst routes rfl
  intro acc t hP r hr
  rw [stepO] at hr
  cases acc with
  | none => exact Option.noConfusion hr
  | some routes0 =>
    rw [Option.some_bind] at hr
    exact mergeStep_flatten_perm (List.nodup_range' 1 s.n_customers)
      (hP routes0 rfl) hr

/-- Witness for `partition_invariant` at a concrete one-customer run. -/
theorem partition_invariant_witness :
    ((([⟨[1], some typeA⟩] : List RouteInfo).map RouteInfo.route).flatten).Perm
      (List.range' 1 exCSA1.n_customers) :=
  partition_invariant exCSA1 (some [⟨[1], some typeA⟩])
    (by with_unfolding_all decide) [⟨[1], some typeA⟩] rfl

/-- C3: when every single customer's demand is coverable by some vehicle
of the catalog, every route of the final collection carries an assigned
vehicle whose capacity covers the sum of the demands of the customers on
that route. -/
theorem capacity_invariant (s : CSA)
    (hfeas : ∀ c, 1 ≤ c → c ≤ s.n_customers →
      ∃ u ∈ s.vehicle_types, s.demand c ≤ u.capacity)
    (final : List RouteInfo) (hrun : optimize_routes s = some final) :
    ∀ e ∈ final, ∃ v, e.vehicle = some v ∧
      (e.route.map s.demand).sum ≤ v.capacity := by
  have hinit : ∀ r : List RouteInfo, some (init_routes s) = some r →
      ∀ e ∈ r, ∃ v, e.vehicle = some v ∧
        (e.route.map s.demand).sum ≤ v.capacity := by
    intro r hr
    obtain rfl : init_routes s = r := Option.some.inj hr
    intro e he
    rw [init_routes] at he
    obtain ⟨i, hi, rfl⟩ := List.mem_map.mp he
    rw [List.mem_range] at hi
    obtain ⟨u, hu, hcap⟩ := hfeas (i + 1) (by omega) (by omega)
    have hsome : (find_smallest_vehicle s.vehicle_types
        (s.demand (i + 1))).isSome := by
      rw [find_smallest_vehicle, List.find?_isSome]
      exact ⟨u, (List.mem_insertionSort vehicleLE).mpr hu, by simp [hcap]⟩
    obtain ⟨v, hv⟩ := Option.isSome_iff_exists.mp hsome
    refine ⟨v, hv, ?_⟩
    rw [find_smallest_vehicle] at hv
    have hple := List.find?_some hv
    have hd : s.demand (i + 1) ≤ v.capacity := of_decide_eq_true hple
    simpa using hd
  have hpres : ∀ acc t,
      (∀ r, acc = some r → ∀ e ∈ r, ∃ v, e.vehicle = some v ∧
        (e.route.map s.demand).sum ≤ v.capacity) →
      ∀ r, stepO s acc t = some r → ∀ e ∈ r, ∃ v, e.vehicle = some v ∧
        (e.route.map s.demand).sum ≤ v.capacity := by
    intro acc t hP r hr
    rw [stepO] at hr
    cases acc with
    | none => exact Option.noConfusion hr
    | some routes0 =>
      rw [Option.some_bind] at hr
      rcases mergeStep_cases s routes0 t r hr with rfl |
        ⟨ri, rj, cv, best, vi, vj, hfi, hfj, hrr, hfs, hcb, hvi, hvj, hlt, rfl⟩
      · exact hP r rfl
      intro e he
      rcases List.mem_append.mp he with he | he
      · exact hP routes0 rfl e (List.mem_filter.mp he).1
      · rw [List.mem_singleton] at he
        subst he
        refine ⟨cv, rfl, ?_⟩
        rw [find_smallest_vehicle] at hfs
        have hple2 := List.find?_some hfs
        have hd : route_demand s (ri.route ++ rj.route) ≤ cv.capacity :=
          of_decide_eq_true hple2
        have hbperm := combine_routes_perm_helper hcb
        have hsum : (best.map s.demand).sum =
            ((ri.route ++ rj.route).map s.demand).sum :=
          (hbperm.map s.demand).sum_eq
        rw [route_demand] at hd
        exact le_of_le_of_eq (le_of_eq hsum) rfl |>.trans hd
  exact foldl_inv (stepO s)
    (fun o => ∀ r, o = some r → ∀ e ∈ r, ∃ v, e.vehicle = some v ∧
      (e.route.map s.demand).sum ≤ v.capacity)
    hpres (sortedSavings s) (some (init_routes s)) hinit final hrun

/-- Witness for `capacity_invariant` at a concrete one-customer run. -/
theorem capacity_invariant_witness :
    ∃ v, (⟨[1], some typeA⟩ : RouteInfo).vehicle = some v ∧
      (([1] : List ℕ).map exCSA1.demand).sum ≤ v.capacity :=
  capacity_invariant exCSA1
    (by
      intro c h1 h2
      have hn : exCSA1.n_customers = 1 := rfl
      have hc : c = 1 := by omega
      subst hc
      exact ⟨typeA, by with_unfolding_all decide, by with_unfolding_all decide⟩)
    [⟨[1], some typeA⟩] (by with_unfolding_all decide)
    ⟨[1], some typeA⟩ (List.mem_singleton.mpr rfl)

/-- C4: under the partition invariant, one successful merge-loop pass
either leaves the route collection unchanged (every skip or reject
branch) or — exactly when merged cost is strictly below the sum of the
two original routes' costs under their current vehicles — replaces the
two routes, and then the total cost over all routes strictly decreases. -/
theorem total_cost_decreases (s : CSA) (routes : List RouteInfo)
    (t : ℚ × ℕ × ℕ) (hnd : ((routes.map RouteInfo.route).flatten).Nodup)
    (routes' : List RouteInfo) (h : mergeStep s routes t = some routes') :
    routes' = routes ∨
      total_cost s.cost_matrix routes' < total_cost s.cost_matrix routes := by
  rcases mergeStep_cases s routes t routes' h with rfl |
    ⟨ri, rj, cv, best, vi, vj, hfi, hfj, hrr, hfs, hcb, hvi, hvj, hlt, rfl⟩
  · exact Or.inl rfl
  right
  obtain ⟨hmi, hci⟩ := findRoute_mem hfi
  obtain ⟨hmj, hcj⟩ := findRoute_mem hfj
  have ci := count_route_entries hci ⟨ri, hmi, rfl⟩ hnd
  have cj := count_route_entries hcj ⟨rj, hmj, rfl⟩ hnd
  have hdec := two_entry_decomp hmi hmj hrr ci cj
  have h1 : total_cost s.cost_matrix routes =
      route_cost s.cost_matrix ri + (route_cost s.cost_matrix rj +
        total_cost s.cost_matrix (routes.filter (fun r =>
          decide (r.route ≠ ri.route ∧ r.route ≠ rj.route)))) := by
    have hs := (hdec.map (route_cost s.cost_matrix)).sum_eq
    simpa [total_cost] using hs
  have h2 : total_cost s.cost_matrix (routes.filter (fun r =>
      decide (r.route ≠ ri.route ∧ r.route ≠ rj.route)) ++
      [(⟨best, some cv⟩ : RouteInfo)]) =
      total_cost s.cost_matrix (routes.filter (fun r =>
        decide (r.route ≠ ri.route ∧ r.route ≠ rj.route))) +
      calculate_route_distance s.cost_matrix best * cv.cost_per_km := by
    rw [total_cost, List.map_append, List.sum_append, ← total_cost]
    simp [total_cost, route_cost, vcost]
  have hri : route_cost s.cost_matrix ri =
      calculate_route_distance s.cost_matrix ri.route * vi.cost_per_km := by
    rw [route_cost, hvi]
    rfl
  have hrj : route_cost s.cost_matrix rj =
      calculate_route_distance s.cost_matrix rj.route * vj.cost_per_km := by
    rw [route_cost, hvj]
    rfl
  rw [h1, h2, hri, hrj]
  linarith [hlt]

/-- Witness for `total_cost_decreases`: a concrete accepted merge of the
two singleton routes of `exCSA3`. -/
theorem total_cost_decreases_witness :
    ([(⟨[1, 2], some typeA⟩ : RouteInfo)] =
      [⟨[1], some typeA⟩, ⟨[2], some typeA⟩] ∨
    total_cost exCSA3.cost_matrix [⟨[1, 2], some typeA⟩] <
      total_cost exCSA3.cost_matrix
        [⟨[1], some typeA⟩, ⟨[2], some typeA⟩]) :=
  total_cost_decreases exCSA3 [⟨[1], some typeA⟩, ⟨[2], some typeA⟩]
    (0, 1, 2) (by with_unfolding_all decide) [⟨[1, 2], some typeA⟩]
    (by with_unfolding_all decide)

/-- C9: an infeasible combined demand makes the merge loop skip the pair:
the collection is returned unchanged, no exception is raised, and in a
two-customer run with infeasible combined demand the final collection is
exactly the two initial singleton routes, whatever the saving value. -/
theorem infeasible_merge_skip (s : CSA) :
    (∀ (routes : List RouteInfo) (t : ℚ × ℕ × ℕ) (ri rj : RouteInfo),
      findRoute routes t.2.1 = some ri → findRoute routes t.2.2 = some rj →
      ri.route ≠ rj.route →
      find_smallest_vehicle s.vehicle_types
        (route_demand s (ri.route ++ rj.route)) = none →
      mergeStep s routes t = some routes) ∧
    (s.n_customers = 2 →
      find_smallest_vehicle s.vehicle_types (s.demand 1 + s.demand 2) = none →
      optimize_routes s = some
        [⟨[1], find_smallest_vehicle s.vehicle_types (s.demand 1)⟩,
          ⟨[2], find_smallest_vehicle s.vehicle_types (s.demand 2)⟩]) := by
  have hskip : ∀ (routes : List RouteInfo) (t : ℚ × ℕ × ℕ)
      (ri rj : RouteInfo),
      findRoute routes t.2.1 = some ri → findRoute routes t.2.2 = some rj →
      ri.route ≠ rj.route →
      find_smallest_vehicle s.vehicle_types
        (route_demand s (ri.route ++ rj.route)) = none →
      mergeStep s routes t = some routes := by
    intro routes t ri rj hfi hfj hrr hfs
    unfold mergeStep
    rw [hfi, hfj]
    dsimp only
    rw [if_neg hrr, hfs]
  refine ⟨hskip, ?_⟩
  intro hn hinf
  have hsav : sortedSavings s =
      [(s.cost_matrix 0 1 + s.cost_matrix 0 2 - s.cost_matrix 1 2, 1, 2)] := by
    rw [sortedSavings, savingsList, hn]
    rfl
  have hinit : init_routes s =
      [⟨[1], find_smallest_vehicle s.vehicle_types (s.demand 1)⟩,
        ⟨[2], find_smallest_vehicle s.vehicle_types (s.demand 2)⟩] := by
    rw [init_routes, hn]
    rfl
  rw [optimize_routes, hsav, hinit, List.foldl_cons, List.foldl_nil, stepO,
    Option.some_bind]
  have hdem : route_demand s (([1] : List ℕ) ++ [2]) =
      s.demand 1 + s.demand 2 := by
    simp [route_demand]
  refine hskip _ _
    ⟨[1], find_smallest_vehicle s.vehicle_types (s.demand 1)⟩
    ⟨[2], find_smallest_vehicle s.vehicle_types (s.demand 2)⟩
    rfl rfl (by simp) ?_
  rw [hdem]
  exact hinf

/-- Witness for `infeasible_merge_skip`: scenario B at `exCSA2`, whose two
customers have combined demand 40 above every capacity. -/
theorem infeasible_merge_skip_witness :
    optimize_routes exCSA2 = some
      [⟨[1], find_smallest_vehicle exCSA2.vehicle_types (exCSA2.demand 1)⟩,
        ⟨[2], find_smallest_vehicle exCSA2.vehicle_types (exCSA2.demand 2)⟩] :=
  (infeasible_merge_skip exCSA2).2 rfl (by with_unfolding_all decide)

/-- C2 divergence: on a customer whose demand 31 exceeds every capacity of
the repository catalog, `__init__` does not abort: it builds the starting
route collection and silently stores no vehicle (`None`) for that
customer's route. -/
theorem infeasible_demand_no_abort :
    init_routes exCSAbad = [⟨[1], none⟩] := by
  with_unfolding_all decide

end SavingsVRP
